import Mathlib

/-!
Shallow embedding of the LMSR market maker (`src/src/lib.rs`).

Real-number (`ℝ`) values stand for the Rust `f64` values, and `Option`
results model partiality: a Rust `Vec` index out of bounds panics, which
the embedding renders as `none`.  All other control flow is translated
line by line from the source.
-/

namespace LMSR

/-- The `MarketMaker` struct: liquidity parameter `b` and the per-outcome
outstanding share vector. -/
structure MarketMaker where
  b : ℝ
  outstanding_shares : List ℝ

/-- Embeds `MarketMaker::new`: all-zero shares of the given length. -/
noncomputable def MarketMaker.new (b : ℝ) (num_outcomes : ℕ) : MarketMaker :=
  { b := b, outstanding_shares := List.replicate num_outcomes 0 }

/-- Embeds `MarketMaker::sum_of_exp`: a left fold accumulating
`acc + exp (q / b)` over the share vector, starting from `0`.  The source
computes `E.pow(q / self.b)`, i.e. `exp (q / b)`. -/
noncomputable def MarketMaker.sum_of_exp (m : MarketMaker) : ℝ :=
  m.outstanding_shares.foldl (fun acc q => acc + Real.exp (q / m.b)) 0

/-- Embeds `MarketMaker::cost_fn`: `b * ln (sum_of_exp)`. -/
noncomputable def MarketMaker.cost_fn (m : MarketMaker) : ℝ :=
  m.b * Real.log m.sum_of_exp

/-- Embeds `MarketMaker::cost_to_trade`: clone, bump the chosen coordinate,
subtract the two costs.  Indexing `outstanding_shares[outcome_id]` panics
when out of range, hence the `Option`. -/
noncomputable def MarketMaker.cost_to_trade (m : MarketMaker) (outcome_id : ℕ)
    (shares : ℝ) : Option ℝ :=
  (m.outstanding_shares[outcome_id]?).map fun q =>
    MarketMaker.cost_fn
        { b := m.b, outstanding_shares := m.outstanding_shares.set outcome_id (q + shares) }
      - m.cost_fn

/-- Embeds `MarketMaker::price`: `exp (q_i / b) / sum_of_exp`, panicking
(`none`) when `outcome_id` is out of range. -/
noncomputable def MarketMaker.price (m : MarketMaker) (outcome_id : ℕ) : Option ℝ :=
  (m.outstanding_shares[outcome_id]?).map fun q =>
    Real.exp (q / m.b) / m.sum_of_exp

/-- Embeds `MarketMaker::shares_to_set_price`:
`b * (ln (new_price / current_price) - ln ((1 - new_price) / (1 - current_price)))`. -/
noncomputable def MarketMaker.shares_to_set_price (m : MarketMaker) (outcome_id : ℕ)
    (new_price : ℝ) : Option ℝ :=
  (m.price outcome_id).map fun current_price =>
    m.b * (Real.log (new_price / current_price)
      - Real.log ((1 - new_price) / (1 - current_price)))

/-- Embeds `MarketMaker::trade`: `outstanding_shares[outcome_id] += shares`
in place; the returned value is the updated engine state. -/
noncomputable def MarketMaker.trade (m : MarketMaker) (outcome_id : ℕ)
    (shares : ℝ) : Option MarketMaker :=
  (m.outstanding_shares[outcome_id]?).map fun q =>
    { b := m.b, outstanding_shares := m.outstanding_shares.set outcome_id (q + shares) }

/-- The `Portfolio` struct: per-outcome holdings and collateral balance. -/
structure Portfolio where
  outcome_shares : List ℝ
  collateral : ℝ

/-- The `Market` struct (the Ledger): the engine, the portfolio map keyed
by address, and the outcome count.  The Rust `HashMap<String, Portfolio>`
is embedded as a function `String → Option Portfolio`. -/
structure Market where
  market_maker : MarketMaker
  portfolios : String → Option Portfolio
  num_outcomes : ℕ

/-- Embeds `Market::new`. -/
noncomputable def Market.new (b : ℝ) (num_outcomes : ℕ) : Market :=
  { market_maker := MarketMaker.new b num_outcomes
    portfolios := fun _ => none
    num_outcomes := num_outcomes }

/-- Embeds `Market::add_collateral`: `entry(address).or_insert(zero portfolio)`
followed by `portfolio.collateral += amount`. -/
noncomputable def Market.add_collateral (mkt : Market) (address : String)
    (amount : ℝ) : Market :=
  let portfolio := (mkt.portfolios address).getD
    { outcome_shares := List.replicate mkt.num_outcomes 0, collateral := 0 }
  { mkt with portfolios := (fun a =>
      if a = address then
        some { portfolio with collateral := portfolio.collateral + amount }
      else mkt.portfolios a) }

/-- Embeds `Market::trade`.  `None => return` is the unknown-participant
no-op; the `else` branch (`collateral < cost`) is the insufficient-collateral
no-op; otherwise the portfolio's holdings, its collateral, and the engine
are all updated.  `portfolio.outcome_shares[outcome_id] += shares` panics
(`none`) when the index is out of range. -/
noncomputable def Market.trade (mkt : Market) (address : String) (outcome_id : ℕ)
    (shares : ℝ) : Option Market :=
  match mkt.portfolios address with
  | none => some mkt
  | some portfolio =>
    (mkt.market_maker.cost_to_trade outcome_id shares).bind fun cost =>
      if portfolio.collateral ≥ cost then
        (portfolio.outcome_shares[outcome_id]?).bind fun ps =>
          (mkt.market_maker.trade outcome_id shares).map fun mm =>
            { mkt with
              market_maker := mm
              portfolios := (fun a =>
                if a = address then
                  some { outcome_shares := portfolio.outcome_shares.set outcome_id (ps + shares)
                         collateral := portfolio.collateral - cost }
                else mkt.portfolios a) }
      else some mkt

/-- Embeds `Market::buy_with_max_price`: negative requests return at once;
otherwise the executed size is `shares_to_max` when `shares_to_max < shares`
and `shares` otherwise. -/
noncomputable def Market.buy_with_max_price (mkt : Market) (address : String)
    (outcome_id : ℕ) (shares max_price : ℝ) : Option Market :=
  if shares < 0 then some mkt
  else
    (mkt.market_maker.shares_to_set_price outcome_id max_price).bind fun shares_to_max =>
      if shares_to_max < shares then mkt.trade address outcome_id shares_to_max
      else mkt.trade address outcome_id shares

/-- An operation on the Ledger, for reasoning about operation sequences. -/
inductive Op where
  | deposit (address : String) (amount : ℝ)
  | trade (address : String) (outcome_id : ℕ) (shares : ℝ)
  | buyMax (address : String) (outcome_id : ℕ) (shares max_price : ℝ)

/-- Runs one operation on a market. -/
noncomputable def Market.step (mkt : Market) : Op → Option Market
  | Op.deposit a amt => some (mkt.add_collateral a amt)
  | Op.trade a i s => mkt.trade a i s
  | Op.buyMax a i s p => mkt.buy_with_max_price a i s p

/-- Runs a sequence of operations on a market. -/
noncomputable def Market.run (mkt : Market) : List Op → Option Market
  | [] => some mkt
  | op :: ops => (mkt.step op).bind fun mkt' => Market.run mkt' ops

/-! Helper lemmas about the fold used by `sum_of_exp`. -/

/-- The accumulating fold of `sum_of_exp` is the sum of the mapped list. -/
theorem foldl_add_map (f : ℝ → ℝ) (l : List ℝ) (a : ℝ) :
    l.foldl (fun acc q => acc + f q) a = a + (l.map f).sum := by
  induction l generalizing a with
  | nil => simp
  | cons hd tl ih => simp [ih (a + f hd)]; ring

/-- A mapped list sum as a `Finset.range` sum over positions. -/
theorem map_sum_eq_range_sum (f : ℝ → ℝ) (l : List ℝ) :
    (l.map f).sum = ∑ k ∈ Finset.range l.length, f (l.getD k 0) := by
  induction l with
  | nil => simp
  | cons hd tl ih =>
      simp only [List.map_cons, List.sum_cons, List.length_cons, ih,
        Finset.sum_range_succ']
      simp [add_comm]

/-- `sum_of_exp` as a positional sum of exponentials. -/
theorem MarketMaker.sum_of_exp_eq_range (m : MarketMaker) :
    m.sum_of_exp = ∑ k ∈ Finset.range m.outstanding_shares.length,
      Real.exp (m.outstanding_shares.getD k 0 / m.b) := by
  rw [MarketMaker.sum_of_exp, foldl_add_map, map_sum_eq_range_sum]
  ring

/-- `sum_of_exp` is positive whenever the share vector is nonempty. -/
theorem MarketMaker.sum_of_exp_pos (m : MarketMaker)
    (hne : m.outstanding_shares ≠ []) : 0 < m.sum_of_exp := by
  rw [MarketMaker.sum_of_exp, foldl_add_map, zero_add]
  refine List.sum_pos _ (fun x hx => ?_) ?_
  · rcases List.mem_map.mp hx with ⟨q, _, rfl⟩
    exact Real.exp_pos _
  · simpa using hne

/-- Each exponential term is bounded by the whole `sum_of_exp`. -/
theorem MarketMaker.exp_le_sum_of_exp (m : MarketMaker) (i : ℕ)
    (hi : i < m.outstanding_shares.length) :
    Real.exp (m.outstanding_shares.getD i 0 / m.b) ≤ m.sum_of_exp := by
  have hmem : i ∈ Finset.range m.outstanding_shares.length := Finset.mem_range.mpr hi
  have hnn : (0:ℝ) ≤ ∑ k ∈ (Finset.range m.outstanding_shares.length).erase i,
      Real.exp (m.outstanding_shares.getD k 0 / m.b) :=
    Finset.sum_nonneg fun k _ => (Real.exp_pos _).le
  rw [MarketMaker.sum_of_exp_eq_range, ← Finset.add_sum_erase _ _ hmem]
  linarith

/-- With at least two outcomes, each exponential term is strictly below
`sum_of_exp`. -/
theorem MarketMaker.exp_lt_sum_of_exp (m : MarketMaker) (i : ℕ)
    (hi : i < m.outstanding_shares.length)
    (h2 : 2 ≤ m.outstanding_shares.length) :
    Real.exp (m.outstanding_shares.getD i 0 / m.b) < m.sum_of_exp := by
  rw [MarketMaker.sum_of_exp_eq_range]
  have hmem : i ∈ Finset.range m.outstanding_shares.length := Finset.mem_range.mpr hi
  rw [← Finset.add_sum_erase _ _ hmem]
  have hpos : 0 < ∑ k ∈ (Finset.range m.outstanding_shares.length).erase i,
      Real.exp (m.outstanding_shares.getD k 0 / m.b) := by
    refine Finset.sum_pos (fun k _ => Real.exp_pos _) ?_
    rw [← Finset.card_pos, Finset.card_erase_of_mem hmem, Finset.card_range]
    omega
  linarith

/-- Setting one position in a list replaces its term in the mapped sum. -/
theorem map_sum_set (f : ℝ → ℝ) (l : List ℝ) (i : ℕ) (v : ℝ)
    (hi : i < l.length) :
    ((l.set i v).map f).sum = (l.map f).sum - f (l.getD i 0) + f v := by
  induction l generalizing i with
  | nil => simp at hi
  | cons hd tl ih =>
      cases i with
      | zero => simp [List.set]; ring
      | succ i =>
          have hi' : i < tl.length := by simpa using hi
          simp only [List.set, List.map_cons, List.sum_cons, List.getD_cons_succ,
            ih i hi']
          ring

/-- Setting one coordinate replaces its exponential term in `sum_of_exp`. -/
theorem MarketMaker.sum_of_exp_set (m : MarketMaker) (i : ℕ)
    (hi : i < m.outstanding_shares.length) (v : ℝ) :
    (MarketMaker.mk m.b (m.outstanding_shares.set i v)).sum_of_exp
      = m.sum_of_exp - Real.exp (m.outstanding_shares.getD i 0 / m.b)
        + Real.exp (v / m.b) := by
  show (m.outstanding_shares.set i v).foldl (fun acc q => acc + Real.exp (q / m.b)) 0
      = m.sum_of_exp - _ + _
  rw [MarketMaker.sum_of_exp, foldl_add_map, foldl_add_map, zero_add, zero_add,
    map_sum_set _ _ _ _ hi]

/-! Helper lemmas about `price`, `cost_to_trade` and `shares_to_set_price`. -/

/-- Explicit form of `price` at a valid index. -/
theorem MarketMaker.price_eq (m : MarketMaker) (i : ℕ)
    (hi : i < m.outstanding_shares.length) :
    m.price i = some (Real.exp (m.outstanding_shares.getD i 0 / m.b) / m.sum_of_exp) := by
  rw [MarketMaker.price, List.getElem?_eq_getElem hi, Option.map_some',
    List.getD_eq_getElem _ _ hi]

/-- A price at a valid index is positive (nonempty vector is implied). -/
theorem MarketMaker.price_pos (m : MarketMaker) (i : ℕ) (p : ℝ)
    (hp : m.price i = some p) : 0 < p := by
  have hi : i < m.outstanding_shares.length := by
    by_contra h
    rw [MarketMaker.price, List.getElem?_eq_none (le_of_not_lt h)] at hp
    simp at hp
  rw [MarketMaker.price_eq m i hi] at hp
  have hne : m.outstanding_shares ≠ [] := by
    intro h
    rw [h] at hi
    simp at hi
  have hS := m.sum_of_exp_pos hne
  have := Real.exp_pos (m.outstanding_shares.getD i 0 / m.b)
  rw [Option.some_inj] at hp
  rw [← hp]
  positivity

/-- A price at a valid index is at most one. -/
theorem MarketMaker.price_le_one (m : MarketMaker) (i : ℕ) (p : ℝ)
    (hp : m.price i = some p) : p ≤ 1 := by
  have hi : i < m.outstanding_shares.length := by
    by_contra h
    rw [MarketMaker.price, List.getElem?_eq_none (le_of_not_lt h)] at hp
    simp at hp
  rw [MarketMaker.price_eq m i hi, Option.some_inj] at hp
  have hne : m.outstanding_shares ≠ [] := by
    intro h
    rw [h] at hi
    simp at hi
  have hS := m.sum_of_exp_pos hne
  have hle := m.exp_le_sum_of_exp i hi
  rw [← hp]
  exact div_le_one_of_le₀ hle hS.le

/-- With at least two outcomes, a price is strictly below one. -/
theorem MarketMaker.price_lt_one (m : MarketMaker) (i : ℕ) (p : ℝ)
    (hp : m.price i = some p) (h2 : 2 ≤ m.outstanding_shares.length) : p < 1 := by
  have hi : i < m.outstanding_shares.length := by
    by_contra h
    rw [MarketMaker.price, List.getElem?_eq_none (le_of_not_lt h)] at hp
    simp at hp
  rw [MarketMaker.price_eq m i hi, Option.some_inj] at hp
  have hne : m.outstanding_shares ≠ [] := by
    intro h
    rw [h] at hi
    simp at hi
  have hS := m.sum_of_exp_pos hne
  have hlt := m.exp_lt_sum_of_exp i hi h2
  rw [← hp]
  exact (div_lt_one hS).mpr hlt

/-- Explicit form of `cost_to_trade` at a valid index. -/
theorem MarketMaker.cost_to_trade_eq (m : MarketMaker) (i : ℕ) (s : ℝ)
    (hi : i < m.outstanding_shares.length) :
    m.cost_to_trade i s = some
      ((MarketMaker.mk m.b
          (m.outstanding_shares.set i (m.outstanding_shares.getD i 0 + s))).cost_fn
        - m.cost_fn) := by
  rw [MarketMaker.cost_to_trade, List.getElem?_eq_getElem hi, Option.map_some',
    List.getD_eq_getElem _ _ hi]

/-- Explicit form of `trade` at a valid index. -/
theorem MarketMaker.trade_eq (m : MarketMaker) (i : ℕ) (s : ℝ)
    (hi : i < m.outstanding_shares.length) :
    m.trade i s = some (MarketMaker.mk m.b
      (m.outstanding_shares.set i (m.outstanding_shares.getD i 0 + s))) := by
  rw [MarketMaker.trade, List.getElem?_eq_getElem hi, Option.map_some',
    List.getD_eq_getElem _ _ hi]

/-- Explicit form of `shares_to_set_price` at a valid index. -/
theorem MarketMaker.shares_to_set_price_eq (m : MarketMaker) (i : ℕ) (t : ℝ)
    (hi : i < m.outstanding_shares.length) :
    m.shares_to_set_price i t = some (m.b
      * (Real.log (t / (Real.exp (m.outstanding_shares.getD i 0 / m.b) / m.sum_of_exp))
        - Real.log ((1 - t)
            / (1 - Real.exp (m.outstanding_shares.getD i 0 / m.b) / m.sum_of_exp)))) := by
  rw [MarketMaker.shares_to_set_price, MarketMaker.price_eq m i hi, Option.map_some']

/-- Price of the market whose `i`-th coordinate has been set to `v`. -/
theorem MarketMaker.price_set_eq (m : MarketMaker) (i : ℕ) (v : ℝ)
    (hi : i < m.outstanding_shares.length) :
    (MarketMaker.mk m.b (m.outstanding_shares.set i v)).price i
      = some (Real.exp (v / m.b)
        / (m.sum_of_exp - Real.exp (m.outstanding_shares.getD i 0 / m.b)
            + Real.exp (v / m.b))) := by
  have hi' : i < (m.outstanding_shares.set i v).length := by
    rwa [List.length_set]
  rw [MarketMaker.price_eq _ i hi', MarketMaker.sum_of_exp_set m i hi v]
  have : (m.outstanding_shares.set i v).getD i 0 = v := by
    rw [List.getD_eq_getElem _ _ hi', List.getElem_set, if_pos rfl]
  rw [this]

/-- Monotone step for logistic-style fractions. -/
theorem div_add_mono (R x y : ℝ) (hR : 0 < R) (hx : 0 < x) (hxy : x ≤ y) :
    x / (R + x) ≤ y / (R + y) := by
  rw [div_le_div_iff₀ (by linarith) (by linarith)]
  nlinarith

/-- Applying the delta returned by `shares_to_set_price` moves the price of
that outcome exactly to the target (for any market with at least two
outcomes, positive liquidity and a target in the open unit interval). -/
theorem MarketMaker.price_after_shares_to_set_price (m : MarketMaker) (i : ℕ)
    (t : ℝ) (hb : 0 < m.b) (hi : i < m.outstanding_shares.length)
    (h2 : 2 ≤ m.outstanding_shares.length) (ht0 : 0 < t) (ht1 : t < 1) :
    ∃ stm, m.shares_to_set_price i t = some stm ∧
      (MarketMaker.mk m.b
          (m.outstanding_shares.set i (m.outstanding_shares.getD i 0 + stm))).price i
        = some t := by
  have hne : m.outstanding_shares ≠ [] := by
    intro h
    rw [h] at hi
    simp at hi
  have hS : 0 < m.sum_of_exp := m.sum_of_exp_pos hne
  have hE : 0 < Real.exp (m.outstanding_shares.getD i 0 / m.b) := Real.exp_pos _
  have hEltS : Real.exp (m.outstanding_shares.getD i 0 / m.b) < m.sum_of_exp :=
    m.exp_lt_sum_of_exp i hi h2
  have hp0 : 0 < Real.exp (m.outstanding_shares.getD i 0 / m.b) / m.sum_of_exp :=
    div_pos hE hS
  have hp1 : Real.exp (m.outstanding_shares.getD i 0 / m.b) / m.sum_of_exp < 1 :=
    (div_lt_one hS).mpr hEltS
  refine ⟨_, m.shares_to_set_price_eq i t hi, ?_⟩
  rw [MarketMaker.price_set_eq m i _ hi]
  congr 1
  have harg : (m.outstanding_shares.getD i 0
      + m.b * (Real.log (t / (Real.exp (m.outstanding_shares.getD i 0 / m.b) / m.sum_of_exp))
        - Real.log ((1 - t)
            / (1 - Real.exp (m.outstanding_shares.getD i 0 / m.b) / m.sum_of_exp)))) / m.b
      = m.outstanding_shares.getD i 0 / m.b
        + (Real.log (t / (Real.exp (m.outstanding_shares.getD i 0 / m.b) / m.sum_of_exp))
          - Real.log ((1 - t)
              / (1 - Real.exp (m.outstanding_shares.getD i 0 / m.b) / m.sum_of_exp))) := by
    field_simp
    ring
  rw [harg, Real.exp_add, Real.exp_sub, Real.exp_log (div_pos ht0 hp0),
    Real.exp_log (div_pos (by linarith) (by linarith))]
  have hX : Real.exp (m.outstanding_shares.getD i 0 / m.b)
      * (t / (Real.exp (m.outstanding_shares.getD i 0 / m.b) / m.sum_of_exp)
        / ((1 - t) / (1 - Real.exp (m.outstanding_shares.getD i 0 / m.b) / m.sum_of_exp)))
      = t * (m.sum_of_exp - Real.exp (m.outstanding_shares.getD i 0 / m.b)) / (1 - t) := by
    have h1t : (1:ℝ) - t ≠ 0 := by linarith
    have hSne : m.sum_of_exp ≠ 0 := ne_of_gt hS
    have hEne : Real.exp (m.outstanding_shares.getD i 0 / m.b) ≠ 0 := ne_of_gt hE
    have h1p : 1 - Real.exp (m.outstanding_shares.getD i 0 / m.b) / m.sum_of_exp ≠ 0 := by
      linarith
    field_simp
    ring
  rw [hX]
  have hR : 0 < m.sum_of_exp - Real.exp (m.outstanding_shares.getD i 0 / m.b) := by
    linarith
  have hden : m.sum_of_exp - Real.exp (m.outstanding_shares.getD i 0 / m.b)
      + t * (m.sum_of_exp - Real.exp (m.outstanding_shares.getD i 0 / m.b)) / (1 - t)
      = (m.sum_of_exp - Real.exp (m.outstanding_shares.getD i 0 / m.b)) / (1 - t) := by
    have h1t : (1:ℝ) - t ≠ 0 := by linarith
    field_simp
    ring
  rw [hden]
  have h1t : (1:ℝ) - t ≠ 0 := by linarith
  have hRne : m.sum_of_exp - Real.exp (m.outstanding_shares.getD i 0 / m.b) ≠ 0 :=
    ne_of_gt hR
  field_simp
  rw [List.getD_eq_getElem _ _ hi] at hRne
  exact mul_div_cancel_right₀ t hRne

/-- The value of `cost_to_trade` written with explicit log-sum-exp terms. -/
theorem MarketMaker.cost_to_trade_val (m : MarketMaker) (i : ℕ) (δ : ℝ)
    (hi : i < m.outstanding_shares.length) :
    m.cost_to_trade i δ = some (m.b * Real.log (m.sum_of_exp
        - Real.exp (m.outstanding_shares.getD i 0 / m.b)
        + Real.exp ((m.outstanding_shares.getD i 0 + δ) / m.b))
      - m.b * Real.log m.sum_of_exp) := by
  rw [MarketMaker.cost_to_trade_eq m i δ hi]
  congr 1
  rw [MarketMaker.cost_fn, MarketMaker.cost_fn, m.sum_of_exp_set i hi]

/-- A negative trade has a strictly negative cost (a refund). -/
theorem MarketMaker.cost_to_trade_neg (m : MarketMaker) (i : ℕ) (δ c : ℝ)
    (hb : 0 < m.b) (hi : i < m.outstanding_shares.length) (hδ : δ < 0)
    (hc : m.cost_to_trade i δ = some c) : c < 0 := by
  rw [MarketMaker.cost_to_trade_val m i δ hi, Option.some_inj] at hc
  have hne : m.outstanding_shares ≠ [] := by
    intro h
    rw [h] at hi
    simp at hi
  have hS : 0 < m.sum_of_exp := m.sum_of_exp_pos hne
  have hRnn : 0 ≤ m.sum_of_exp - Real.exp (m.outstanding_shares.getD i 0 / m.b) := by
    have := m.exp_le_sum_of_exp i hi
    linarith
  have hexp_lt : Real.exp ((m.outstanding_shares.getD i 0 + δ) / m.b)
      < Real.exp (m.outstanding_shares.getD i 0 / m.b) := by
    apply Real.exp_lt_exp.mpr
    apply div_lt_div_of_pos_right ?_ hb
    linarith
  have hS'pos : 0 < m.sum_of_exp - Real.exp (m.outstanding_shares.getD i 0 / m.b)
      + Real.exp ((m.outstanding_shares.getD i 0 + δ) / m.b) := by
    have := Real.exp_pos ((m.outstanding_shares.getD i 0 + δ) / m.b)
    linarith
  have hlog : Real.log (m.sum_of_exp
        - Real.exp (m.outstanding_shares.getD i 0 / m.b)
        + Real.exp ((m.outstanding_shares.getD i 0 + δ) / m.b))
      < Real.log m.sum_of_exp :=
    Real.log_lt_log hS'pos (by linarith)
  rw [← hc] at *
  nlinarith

/-- A purchase of `δ ≥ 0` shares costs at most `δ` collateral units. -/
theorem MarketMaker.cost_to_trade_le (m : MarketMaker) (i : ℕ) (δ c : ℝ)
    (hb : 0 < m.b) (hi : i < m.outstanding_shares.length) (hδ : 0 ≤ δ)
    (hc : m.cost_to_trade i δ = some c) : c ≤ δ := by
  rw [MarketMaker.cost_to_trade_val m i δ hi, Option.some_inj] at hc
  have hne : m.outstanding_shares ≠ [] := by
    intro h
    rw [h] at hi
    simp at hi
  have hS : 0 < m.sum_of_exp := m.sum_of_exp_pos hne
  have hRnn : 0 ≤ m.sum_of_exp - Real.exp (m.outstanding_shares.getD i 0 / m.b) := by
    have := m.exp_le_sum_of_exp i hi
    linarith
  have hexp1 : 1 ≤ Real.exp (δ / m.b) := by
    rw [← Real.exp_zero]
    exact Real.exp_le_exp.mpr (by positivity)
  have hsplit : Real.exp ((m.outstanding_shares.getD i 0 + δ) / m.b)
      = Real.exp (m.outstanding_shares.getD i 0 / m.b) * Real.exp (δ / m.b) := by
    rw [← Real.exp_add, ← add_div]
  have hS'pos : 0 < m.sum_of_exp - Real.exp (m.outstanding_shares.getD i 0 / m.b)
      + Real.exp ((m.outstanding_shares.getD i 0 + δ) / m.b) := by
    have := Real.exp_pos ((m.outstanding_shares.getD i 0 + δ) / m.b)
    linarith
  have hsle : m.sum_of_exp - Real.exp (m.outstanding_shares.getD i 0 / m.b)
        + Real.exp ((m.outstanding_shares.getD i 0 + δ) / m.b)
      ≤ m.sum_of_exp * Real.exp (δ / m.b) := by
    rw [hsplit]
    nlinarith
  have hlog : Real.log (m.sum_of_exp
        - Real.exp (m.outstanding_shares.getD i 0 / m.b)
        + Real.exp ((m.outstanding_shares.getD i 0 + δ) / m.b))
      ≤ Real.log m.sum_of_exp + δ / m.b := by
    have h1 : Real.log (m.sum_of_exp * Real.exp (δ / m.b))
        = Real.log m.sum_of_exp + δ / m.b := by
      rw [Real.log_mul (ne_of_gt hS) (ne_of_gt (Real.exp_pos _)), Real.log_exp]
    rw [← h1]
    exact Real.log_le_log hS'pos hsle
  have hfin : m.b * (δ / m.b) = δ := by
    field_simp
  nlinarith

/-! Helper lemmas about the Ledger. -/

/-- The executed branch of `Market::trade`: when the participant exists,
the cost is computed and covered by the collateral, all three mutations
happen together. -/
theorem Market.trade_success (mkt : Market) (a : String) (i : ℕ) (s : ℝ)
    (P : Portfolio) (c ps q : ℝ)
    (hP : mkt.portfolios a = some P)
    (hc : mkt.market_maker.cost_to_trade i s = some c)
    (hcoll : c ≤ P.collateral)
    (hps : P.outcome_shares[i]? = some ps)
    (hq : mkt.market_maker.outstanding_shares[i]? = some q) :
    mkt.trade a i s = some
      { mkt with
        market_maker := MarketMaker.mk mkt.market_maker.b
          (mkt.market_maker.outstanding_shares.set i (q + s))
        portfolios := (fun a' =>
          if a' = a then
            some (Portfolio.mk (P.outcome_shares.set i (ps + s)) (P.collateral - c))
          else mkt.portfolios a') } := by
  have hq' : i < mkt.market_maker.outstanding_shares.length :=
    (List.getElem?_eq_some.mp hq).1
  have hqval : mkt.market_maker.outstanding_shares.getD i 0 = q := by
    rw [List.getD_eq_getElem _ _ hq']
    exact (Option.some_inj.mp ((List.getElem?_eq_getElem hq').symm.trans hq))
  simp only [Market.trade, hP, hc, Option.some_bind]
  rw [if_pos (show P.collateral ≥ c from hcoll)]
  simp only [hps, Option.some_bind, MarketMaker.trade_eq _ i s hq', Option.map_some',
    hqval]

/-- The solvency invariant: every stored portfolio has nonnegative
collateral. -/
def Market.solvent (mkt : Market) : Prop :=
  ∀ a P, mkt.portfolios a = some P → 0 ≤ P.collateral

/-- `add_collateral` with a nonnegative amount preserves solvency. -/
theorem Market.solvent_add_collateral (mkt : Market) (a : String) (amt : ℝ)
    (hinv : mkt.solvent) (hamt : 0 ≤ amt) : (mkt.add_collateral a amt).solvent := by
  intro a' P hP
  simp only [Market.add_collateral] at hP
  by_cases h : a' = a
  · rw [if_pos h] at hP
    rw [Option.some_inj] at hP
    have h0 : 0 ≤ ((mkt.portfolios a).getD
        (Portfolio.mk (List.replicate mkt.num_outcomes 0) 0)).collateral := by
      cases hPa : mkt.portfolios a with
      | none => simp [hPa]
      | some Q => simpa [hPa] using hinv a Q hPa
    rw [← hP]
    simpa using by linarith
  · rw [if_neg h] at hP
    exact hinv a' P hP

/-- `trade` preserves solvency whenever it returns a market. -/
theorem Market.solvent_trade (mkt : Market) (a : String) (i : ℕ) (s : ℝ)
    (mkt' : Market) (hinv : mkt.solvent) (h : mkt.trade a i s = some mkt') :
    mkt'.solvent := by
  rw [Market.trade] at h
  cases hPa : mkt.portfolios a with
  | none =>
      simp only [hPa, Option.some_inj] at h
      rwa [← h]
  | some P =>
      cases hc : mkt.market_maker.cost_to_trade i s with
      | none => simp [hPa, hc] at h
      | some c =>
          simp only [hPa, hc, Option.some_bind] at h
          by_cases hge : P.collateral ≥ c
          · rw [if_pos hge] at h
            cases hps : P.outcome_shares[i]? with
            | none => simp [hps] at h
            | some ps =>
                rw [hps, Option.some_bind] at h
                cases htr : mkt.market_maker.trade i s with
                | none => simp [htr] at h
                | some mm =>
                    rw [htr, Option.map_some', Option.some_inj] at h
                    intro a' Q hQ
                    rw [← h] at hQ
                    dsimp only at hQ
                    by_cases ha' : a' = a
                    · subst ha'
                      rw [if_pos rfl, Option.some_inj] at hQ
                      rw [← hQ]
                      simpa using by linarith
                    · simp only [if_neg ha'] at hQ
                      exact hinv a' Q hQ
          · rw [if_neg hge, Option.some_inj] at h
            rwa [← h]

/-- `buy_with_max_price` preserves solvency whenever it returns a market. -/
theorem Market.solvent_buy_with_max_price (mkt : Market) (a : String) (i : ℕ)
    (s t : ℝ) (mkt' : Market) (hinv : mkt.solvent)
    (h : mkt.buy_with_max_price a i s t = some mkt') : mkt'.solvent := by
  rw [Market.buy_with_max_price] at h
  by_cases hs : s < 0
  · rw [if_pos hs, Option.some_inj] at h
    rwa [← h]
  · rw [if_neg hs] at h
    cases hstm : mkt.market_maker.shares_to_set_price i t with
    | none => rw [hstm] at h; simp at h
    | some stm =>
        rw [hstm, Option.some_bind] at h
        by_cases hlt : stm < s
        · rw [if_pos hlt] at h
          exact mkt.solvent_trade a i stm mkt' hinv h
        · rw [if_neg hlt] at h
          exact mkt.solvent_trade a i s mkt' hinv h

/-- A single step preserves solvency when deposits are nonnegative. -/
theorem Market.solvent_step (mkt : Market) (op : Op) (mkt' : Market)
    (hinv : mkt.solvent)
    (hop : ∀ a amt, op = Op.deposit a amt → 0 ≤ amt)
    (h : mkt.step op = some mkt') : mkt'.solvent := by
  cases op with
  | deposit a amt =>
      rw [Market.step, Option.some_inj] at h
      rw [← h]
      exact mkt.solvent_add_collateral a amt hinv (hop a amt rfl)
  | trade a i s => exact mkt.solvent_trade a i s mkt' hinv h
  | buyMax a i s t => exact mkt.solvent_buy_with_max_price a i s t mkt' hinv h

/-- Running a sequence of operations preserves solvency when every deposit
in the sequence is nonnegative. -/
theorem Market.solvent_run (mkt : Market) (ops : List Op) (mkt' : Market)
    (hinv : mkt.solvent)
    (hops : ∀ a amt, Op.deposit a amt ∈ ops → 0 ≤ amt)
    (h : mkt.run ops = some mkt') : mkt'.solvent := by
  induction ops generalizing mkt with
  | nil =>
      rw [Market.run, Option.some_inj] at h
      rwa [← h]
  | cons op rest ih =>
      rw [Market.run] at h
      cases hstep : mkt.step op with
      | none => rw [hstep] at h; simp at h
      | some mid =>
          rw [hstep, Option.some_bind] at h
          have hmid : mid.solvent :=
            mkt.solvent_step op mid hinv
              (fun a amt heq => hops a amt (heq ▸ List.mem_cons_self op rest)) hstep
          exact ih mid hmid (fun a amt hmem => hops a amt (List.mem_cons_of_mem op hmem)) h

/-! Numeric bounds on the exponential, used for the concrete trade cost. -/

/-- Taylor bounds at `1/10`. -/
theorem exp_tenth_bounds :
    (1.10517091 : ℝ) ≤ Real.exp (1/10) ∧ Real.exp (1/10) ≤ 1.10517092 := by
  have h := Real.exp_bound (x := (1/10:ℝ))
    (by rw [abs_of_nonneg (by norm_num : (0:ℝ) ≤ 1/10)]; norm_num)
    (n := 6) (by norm_num)
  rw [abs_of_nonneg (by norm_num : (0:ℝ) ≤ 1/10)] at h
  norm_num [Finset.sum_range_succ, Nat.factorial] at h
  obtain ⟨h1, h2⟩ := abs_le.mp h
  constructor <;> linarith

/-- Taylor upper bound at `0.051248`. -/
theorem exp_lo_ub : Real.exp (0.051248 : ℝ) ≤ 1.0525840 := by
  have h := Real.exp_bound (x := (0.051248:ℝ))
    (by rw [abs_of_nonneg (by norm_num : (0:ℝ) ≤ 0.051248)]; norm_num)
    (n := 6) (by norm_num)
  rw [abs_of_nonneg (by norm_num : (0:ℝ) ≤ 0.051248)] at h
  norm_num [Finset.sum_range_succ, Nat.factorial] at h
  obtain ⟨h1, h2⟩ := abs_le.mp h
  linarith

/-- Taylor lower bound at `0.05125`. -/
theorem exp_hi_lb : (1.0525860 : ℝ) ≤ Real.exp (0.05125 : ℝ) := by
  have h := Real.exp_bound (x := (0.05125:ℝ))
    (by rw [abs_of_nonneg (by norm_num : (0:ℝ) ≤ 0.05125)]; norm_num)
    (n := 6) (by norm_num)
  rw [abs_of_nonneg (by norm_num : (0:ℝ) ≤ 0.05125)] at h
  norm_num [Finset.sum_range_succ, Nat.factorial] at h
  obtain ⟨h1, h2⟩ := abs_le.mp h
  linarith

/-- Numeric bounds on the cost of the concrete ten-share trade. -/
theorem trade_cost_num_bounds :
    (5.1248 : ℝ) < 100 * Real.log (1 + Real.exp (1/10)) - 100 * Real.log 2
      ∧ 100 * Real.log (1 + Real.exp (1/10)) - 100 * Real.log 2 < 5.1250 := by
  obtain ⟨hl, hu⟩ := exp_tenth_bounds
  have hlo := exp_lo_ub
  have hhi := exp_hi_lb
  have hpos : (0:ℝ) < 1 + Real.exp (1/10) := by positivity
  constructor
  · have key : Real.log 2 + 0.051248 < Real.log (1 + Real.exp (1/10)) := by
      rw [Real.lt_log_iff_exp_lt hpos, Real.exp_add,
        Real.exp_log (by norm_num : (0:ℝ) < 2)]
      nlinarith [hlo, hl]
    linarith
  · have key : Real.log (1 + Real.exp (1/10)) < Real.log 2 + 0.05125 := by
      rw [Real.log_lt_iff_lt_exp hpos, Real.exp_add,
        Real.exp_log (by norm_num : (0:ℝ) < 2)]
      nlinarith [hhi, hu]
    linarith

/-! Overflow-aware model of the floating-point exponential, used to settle
the stabilization claim.  A 64-bit float exponential overflows to infinity
once its argument exceeds `ln (f64::MAX) ≈ 709.78`; the model renders an
overflowed computation as `none`. -/

/-- Threshold beyond which `exp` overflows a 64-bit float. -/
noncomputable def f64_exp_max : ℝ := 709.78

/-- The `f64` exponential with overflow tracking. -/
noncomputable def exp_chk (x : ℝ) : Option ℝ :=
  if x ≤ f64_exp_max then some (Real.exp x) else none

/-- `sum_of_exp` as the source computes it (a naive direct fold), with
overflow tracking. -/
noncomputable def MarketMaker.sum_of_exp_chk (m : MarketMaker) : Option ℝ :=
  m.outstanding_shares.foldl
    (fun acc q => acc.bind fun a => (exp_chk (q / m.b)).map fun e => a + e)
    (some 0)

/-- `cost_fn` as the source computes it, with overflow tracking. -/
noncomputable def MarketMaker.cost_fn_chk (m : MarketMaker) : Option ℝ :=
  m.sum_of_exp_chk.map fun s => m.b * Real.log s

/-- Modelled from the spec: the log-sum-exp stabilized evaluation of
`cost()` that the spec prescribes (subtract the maximum `q_i/b` before
exponentiating, add it back after taking the log), with the same overflow
tracking.  This computation is absent from the source; it exists here only
to be compared against `cost_fn_chk`.  The shift is the maximum of the
`q_i/b` and `0`, which keeps every exponent nonpositive. -/
noncomputable def MarketMaker.cost_fn_stabilized_chk (m : MarketMaker) : Option ℝ :=
  let M := (m.outstanding_shares.map (fun q => q / m.b)).foldl max 0
  (m.outstanding_shares.foldl
      (fun acc q => acc.bind fun a => (exp_chk (q / m.b - M)).map fun e => a + e)
      (some 0)).map
    fun s => m.b * (M + Real.log s)

/-- A `none` accumulator stays `none` through the checked fold. -/
theorem foldl_chk_none (g : ℝ → Option ℝ) (l : List ℝ) :
    l.foldl (fun acc q => acc.bind fun a => (g q).map fun e => a + e) none = none := by
  induction l with
  | nil => rfl
  | cons hd tl ih => simpa using ih

/-- When every element stays under the overflow threshold, the checked fold
computes the exact mapped sum. -/
theorem foldl_chk_of_le (b : ℝ) (l : List ℝ) (a : ℝ)
    (hsmall : ∀ q ∈ l, q / b ≤ f64_exp_max) :
    l.foldl (fun acc q => acc.bind fun x => (exp_chk (q / b)).map fun e => x + e)
        (some a)
      = some (a + (l.map fun q => Real.exp (q / b)).sum) := by
  induction l generalizing a with
  | nil => simp
  | cons hd tl ih =>
      have hhd : hd / b ≤ f64_exp_max := hsmall hd (List.mem_cons_self hd tl)
      have htl : ∀ q ∈ tl, q / b ≤ f64_exp_max :=
        fun q hq => hsmall q (List.mem_cons_of_mem hd hq)
      have hstep : ((some a).bind fun x =>
          (exp_chk (hd / b)).map fun e => x + e) = some (a + Real.exp (hd / b)) := by
        simp [exp_chk, if_pos hhd]
      rw [List.foldl_cons, hstep, ih (a + Real.exp (hd / b)) htl, List.map_cons,
        List.sum_cons, add_assoc]

/-- When some element exceeds the overflow threshold, the checked fold
overflows. -/
theorem foldl_chk_of_big (b : ℝ) (l : List ℝ) (acc : Option ℝ)
    (hbig : ∃ q ∈ l, f64_exp_max < q / b) :
    l.foldl (fun acc' q => acc'.bind fun x => (exp_chk (q / b)).map fun e => x + e)
        acc
      = none := by
  induction l generalizing acc with
  | nil => simp at hbig
  | cons hd tl ih =>
      by_cases hhd : f64_exp_max < hd / b
      · have : (acc.bind fun x => (exp_chk (hd / b)).map fun e => x + e) = none := by
          cases acc with
          | none => rfl
          | some x => simp [exp_chk, if_neg (not_le.mpr hhd)]
        rw [List.foldl_cons, this, foldl_chk_none]
      · rcases hbig with ⟨q, hq, hqbig⟩
        rcases List.mem_cons.mp hq with rfl | hqtl
        · exact absurd hqbig hhd
        · exact ih _ ⟨q, hqtl, hqbig⟩

/-! The claims. -/

/-- C1: a `Market::trade` for a participant with no portfolio, or whose
collateral is below the computed cost, returns the whole market unchanged:
collateral, every portfolio, and the engine state are untouched (a silent
no-op). -/
theorem claim_C1_declined_trade_is_silent_noop (mkt : Market) (a : String)
    (i : ℕ) (s : ℝ)
    (h : mkt.portfolios a = none
      ∨ ∃ P c, mkt.portfolios a = some P
          ∧ mkt.market_maker.cost_to_trade i s = some c
          ∧ P.collateral < c) :
    mkt.trade a i s = some mkt := by
  rcases h with hnone | ⟨P, c, hP, hc, hlt⟩
  · simp [Market.trade, hnone]
  · simp only [Market.trade, hP, hc, Option.some_bind]
    rw [if_neg (not_le.mpr hlt)]

/-- Witness for C1 at a freshly created market with no participants. -/
theorem claim_C1_witness :
    (Market.new 100 2).trade "z" 0 10 = some (Market.new 100 2) :=
  claim_C1_declined_trade_is_silent_noop (Market.new 100 2) "z" 0 10 (Or.inl rfl)

/-- C2: an executed `Market::trade` (portfolio present, collateral covering
the cost) performs the three mutations together: collateral decreases by
exactly the cost, the participant's holdings for the outcome increase by
exactly the traded shares, the engine's outstanding shares increase by the
same amount, and no other portfolio changes.  Concretely, depositing 20
collateral and trading 10 shares of outcome 1 on a fresh 2-outcome market
with liquidity 100 leaves collateral within `1e-4` of `14.8751` and
`shares[1] = 10`. -/
theorem claim_C2_executed_trade_mutations :
    (∀ (mkt : Market) (a : String) (i : ℕ) (s : ℝ) (P : Portfolio) (c ps q : ℝ),
      mkt.portfolios a = some P →
      mkt.market_maker.cost_to_trade i s = some c →
      c ≤ P.collateral →
      P.outcome_shares[i]? = some ps →
      mkt.market_maker.outstanding_shares[i]? = some q →
      mkt.trade a i s = some
        { mkt with
          market_maker := MarketMaker.mk mkt.market_maker.b
            (mkt.market_maker.outstanding_shares.set i (q + s))
          portfolios := (fun a' =>
            if a' = a then
              some (Portfolio.mk (P.outcome_shares.set i (ps + s)) (P.collateral - c))
            else mkt.portfolios a') })
    ∧ (∃ mkt' P', ((Market.new 100 2).add_collateral "a" 20).trade "a" 1 10 = some mkt'
        ∧ mkt'.portfolios "a" = some P'
        ∧ |P'.collateral - 14.8751| < 0.0001
        ∧ P'.outcome_shares[1]? = some 10) := by
  constructor
  · intro mkt a i s P c ps q hP hc hcoll hps hq
    exact Market.trade_success mkt a i s P c ps q hP hc hcoll hps hq
  · have hi : (1:ℕ) <
        (((Market.new 100 2).add_collateral "a" 20).market_maker).outstanding_shares.length := by
      simp [Market.new, MarketMaker.new, Market.add_collateral]
    have hc : ((Market.new 100 2).add_collateral "a" 20).market_maker.cost_to_trade 1 10
        = some (100 * Real.log (1 + Real.exp (1/10)) - 100 * Real.log 2) := by
      rw [MarketMaker.cost_to_trade_val _ 1 10 hi]
      congr 1
      simp only [Market.new, MarketMaker.new, Market.add_collateral,
        MarketMaker.sum_of_exp, List.replicate_succ, List.replicate_zero,
        List.foldl_cons, List.foldl_nil, List.getD_cons_succ, List.getD_cons_zero,
        List.set_cons_succ, List.set_cons_zero]
      norm_num [Real.exp_zero]
    obtain ⟨hlb, hub⟩ := trade_cost_num_bounds
    have hP : ((Market.new 100 2).add_collateral "a" 20).portfolios "a"
        = some (Portfolio.mk (List.replicate 2 0) (0 + 20)) := rfl
    have hps : (Portfolio.mk (List.replicate 2 (0:ℝ)) (0 + 20)).outcome_shares[1]?
        = some 0 := rfl
    have hq :
        (((Market.new 100 2).add_collateral "a" 20).market_maker).outstanding_shares[1]?
          = some 0 := rfl
    have hcoll : 100 * Real.log (1 + Real.exp (1/10)) - 100 * Real.log 2
        ≤ (Portfolio.mk (List.replicate 2 (0:ℝ)) (0 + 20)).collateral := by
      simp only [Portfolio.mk.injEq]
      norm_num
      linarith
    have htr := Market.trade_success ((Market.new 100 2).add_collateral "a" 20)
      "a" 1 10 (Portfolio.mk (List.replicate 2 0) (0 + 20))
      (100 * Real.log (1 + Real.exp (1/10)) - 100 * Real.log 2) 0 0
      hP hc hcoll hps hq
    refine ⟨_, Portfolio.mk ((List.replicate 2 0).set 1 (0 + 10))
      ((0 + 20) - (100 * Real.log (1 + Real.exp (1/10)) - 100 * Real.log 2)),
      htr, rfl, ?_, ?_⟩
    · rw [abs_lt]
      constructor <;> [skip; skip] <;> norm_num <;> linarith
    · have : ((List.replicate 2 (0:ℝ)).set 1 (0 + 10))[1]? = some (0 + 10) := rfl
      rw [this]
      norm_num

/-- Witness for C2: the general clause applied at the concrete market of
the second clause. -/
theorem claim_C2_witness :
    ((Market.new 100 2).add_collateral "a" 20).trade "a" 1 10 = some
      { (Market.new 100 2).add_collateral "a" 20 with
        market_maker := MarketMaker.mk
          (((Market.new 100 2).add_collateral "a" 20).market_maker).b
          ((((Market.new 100 2).add_collateral "a" 20).market_maker).outstanding_shares.set
            1 (0 + 10))
        portfolios := (fun a' =>
          if a' = "a" then
            some (Portfolio.mk ((List.replicate 2 0).set 1 (0 + 10))
              ((0 + 20) - (100 * Real.log (1 + Real.exp (1/10)) - 100 * Real.log 2)))
          else ((Market.new 100 2).add_collateral "a" 20).portfolios a') } := by
  have hi : (1:ℕ) <
      (((Market.new 100 2).add_collateral "a" 20).market_maker).outstanding_shares.length := by
    simp [Market.new, MarketMaker.new, Market.add_collateral]
  have hc : ((Market.new 100 2).add_collateral "a" 20).market_maker.cost_to_trade 1 10
      = some (100 * Real.log (1 + Real.exp (1/10)) - 100 * Real.log 2) := by
    rw [MarketMaker.cost_to_trade_val _ 1 10 hi]
    congr 1
    simp only [Market.new, MarketMaker.new, Market.add_collateral,
      MarketMaker.sum_of_exp, List.replicate_succ, List.replicate_zero,
      List.foldl_cons, List.foldl_nil, List.getD_cons_succ, List.getD_cons_zero,
      List.set_cons_succ, List.set_cons_zero]
    norm_num [Real.exp_zero]
  obtain ⟨hlb, hub⟩ := trade_cost_num_bounds
  exact claim_C2_executed_trade_mutations.1
    ((Market.new 100 2).add_collateral "a" 20) "a" 1 10
    (Portfolio.mk (List.replicate 2 0) (0 + 20))
    (100 * Real.log (1 + Real.exp (1/10)) - 100 * Real.log 2) 0 0
    rfl hc (by simp only [Portfolio.mk.injEq]; norm_num; linarith) rfl rfl

/-- C3 counterexample: on a one-outcome market the (valid) price of outcome
0 is exactly 1, so it does not lie strictly inside the unit interval as the
claim states for every share vector. -/
theorem claim_C3_counterexample :
    ¬ ∀ p, (MarketMaker.mk 100 [0]).price 0 = some p → 0 < p ∧ p < 1 := by
  intro h
  have hp : (MarketMaker.mk 100 [0]).price 0 = some 1 := by
    simp [MarketMaker.price, MarketMaker.sum_of_exp]
  exact absurd (h 1 hp).2 (lt_irrefl 1)

/-- C3 amended: for every engine with positive liquidity and a nonempty
share vector, the prices over all valid outcomes sum to exactly 1 and each
price lies in `(0, 1]`; with at least two outcomes each price is strictly
below 1 (with exactly one outcome the price equals 1). -/
theorem claim_C3_amended (m : MarketMaker) (hb : 0 < m.b)
    (hne : m.outstanding_shares ≠ []) :
    (∑ i ∈ Finset.range m.outstanding_shares.length, (m.price i).getD 0) = 1
    ∧ (∀ i p, m.price i = some p → 0 < p ∧ p ≤ 1)
    ∧ (2 ≤ m.outstanding_shares.length →
        ∀ i p, m.price i = some p → 0 < p ∧ p < 1) := by
  have hS : 0 < m.sum_of_exp := m.sum_of_exp_pos hne
  refine ⟨?_, fun i p hp => ⟨m.price_pos i p hp, m.price_le_one i p hp⟩,
    fun h2 i p hp => ⟨m.price_pos i p hp, m.price_lt_one i p hp h2⟩⟩
  have hcongr : ∀ i ∈ Finset.range m.outstanding_shares.length,
      (m.price i).getD 0
        = Real.exp (m.outstanding_shares.getD i 0 / m.b) / m.sum_of_exp := by
    intro i hi
    rw [MarketMaker.price_eq m i (Finset.mem_range.mp hi)]
    rfl
  rw [Finset.sum_congr rfl hcongr, ← Finset.sum_div, ← MarketMaker.sum_of_exp_eq_range]
  exact div_self (ne_of_gt hS)

/-- Witness for C3 (amended) at a fresh two-outcome market. -/
theorem claim_C3_witness :
    (∑ i ∈ Finset.range (MarketMaker.mk 100 [0, 0]).outstanding_shares.length,
        ((MarketMaker.mk 100 [0, 0]).price i).getD 0) = 1
    ∧ (∀ i p, (MarketMaker.mk 100 [0, 0]).price i = some p → 0 < p ∧ p ≤ 1)
    ∧ (2 ≤ (MarketMaker.mk 100 [0, 0]).outstanding_shares.length →
        ∀ i p, (MarketMaker.mk 100 [0, 0]).price i = some p → 0 < p ∧ p < 1) :=
  claim_C3_amended (MarketMaker.mk 100 [0, 0]) (by norm_num) (by simp)

/-- C4: at a valid outcome index, `cost_to_trade` returns the difference of
the cost function evaluated on the bumped snapshot and on the current
state.  In the embedding `cost_to_trade` is a pure function of the engine:
the engine value it is applied to is unchanged, the bumped vector exists
only inside the returned difference, exactly as the cloned snapshot in the
source. -/
theorem claim_C4_cost_to_trade_is_cost_difference (m : MarketMaker) (i : ℕ)
    (s : ℝ) (hi : i < m.outstanding_shares.length) :
    ∃ m', m.trade i s = some m'
      ∧ m.cost_to_trade i s = some (m'.cost_fn - m.cost_fn) := by
  refine ⟨_, m.trade_eq i s hi, ?_⟩
  rw [m.cost_to_trade_eq i s hi]

/-- Witness for C4 at a fresh two-outcome market. -/
theorem claim_C4_witness :
    ∃ m', (MarketMaker.mk 100 [0, 0]).trade 0 10 = some m'
      ∧ (MarketMaker.mk 100 [0, 0]).cost_to_trade 0 10
        = some (m'.cost_fn - (MarketMaker.mk 100 [0, 0]).cost_fn) :=
  claim_C4_cost_to_trade_is_cost_difference (MarketMaker.mk 100 [0, 0]) 0 10 (by simp)

/-- C5: `buy_with_max_price` with a nonnegative request executes
`trade` with `min shares sharesToMax`, where `sharesToMax` is read off the
current engine state; when the trade executes (participant present, cost
covered), the resulting price of the outcome does not exceed `maxPrice`;
a negative request is a no-op.  Stated for markets with at least two
outcomes, positive liquidity and a price cap inside the open unit interval
(the spec declares the boundary behaviour undefined). -/
theorem claim_C5_buy_with_max_price_caps_price (mkt : Market) (a : String)
    (i : ℕ) (s t : ℝ)
    (hb : 0 < mkt.market_maker.b)
    (h2 : 2 ≤ mkt.market_maker.outstanding_shares.length)
    (hi : i < mkt.market_maker.outstanding_shares.length)
    (ht0 : 0 < t) (ht1 : t < 1) :
    (s < 0 → mkt.buy_with_max_price a i s t = some mkt)
    ∧ (0 ≤ s → ∃ stm,
        mkt.market_maker.shares_to_set_price i t = some stm
        ∧ mkt.buy_with_max_price a i s t = mkt.trade a i (min s stm)
        ∧ ∀ P c ps q,
            mkt.portfolios a = some P →
            mkt.market_maker.cost_to_trade i (min s stm) = some c →
            c ≤ P.collateral →
            P.outcome_shares[i]? = some ps →
            mkt.market_maker.outstanding_shares[i]? = some q →
            ∃ mkt' p', mkt.buy_with_max_price a i s t = some mkt'
              ∧ (mkt'.market_maker).price i = some p' ∧ p' ≤ t) := by
  obtain ⟨stm, hstm, hhit⟩ :=
    mkt.market_maker.price_after_shares_to_set_price i t hb hi h2 ht0 ht1
  constructor
  · intro hs
    rw [Market.buy_with_max_price, if_pos hs]
  · intro hs
    have hbuy : mkt.buy_with_max_price a i s t = mkt.trade a i (min s stm) := by
      rw [Market.buy_with_max_price, if_neg (not_lt.mpr hs), hstm, Option.some_bind]
      by_cases hlt : stm < s
      · rw [if_pos hlt, min_eq_right hlt.le]
      · rw [if_neg hlt, min_eq_left (not_lt.mp hlt)]
    refine ⟨stm, hstm, hbuy, ?_⟩
    intro P c ps q hP hc hcoll hps hq
    have htr := Market.trade_success mkt a i (min s stm) P c ps q hP hc hcoll hps hq
    have hqval : mkt.market_maker.outstanding_shares.getD i 0 = q := by
      rw [List.getD_eq_getElem _ _ hi]
      exact Option.some_inj.mp ((List.getElem?_eq_getElem hi).symm.trans hq)
    have hprice := mkt.market_maker.price_set_eq i (q + min s stm) hi
    refine ⟨_, _, by rw [hbuy, htr], hprice, ?_⟩
    rw [hqval] at hhit
    rw [mkt.market_maker.price_set_eq i (q + stm) hi] at hhit
    have ht_eq := Option.some_inj.mp hhit
    rw [← ht_eq]
    have hR : 0 < mkt.market_maker.sum_of_exp
        - Real.exp (mkt.market_maker.outstanding_shares.getD i 0
            / mkt.market_maker.b) := by
      have := mkt.market_maker.exp_lt_sum_of_exp i hi h2
      linarith
    apply div_add_mono _ _ _ hR (Real.exp_pos _)
    apply Real.exp_le_exp.mpr
    gcongr
    exact min_le_right s stm

/-- Witness for C5: a fresh two-outcome market, abundant collateral, a
request of 1000 shares capped at price `0.6`. -/
theorem claim_C5_witness :
    ∃ stm mkt' p',
      (Market.mk (MarketMaker.mk 100 [0, 0]) (fun _ => some (Portfolio.mk [0, 0] 10000)) 2).market_maker.shares_to_set_price 0 0.6 = some stm
      ∧ (Market.mk (MarketMaker.mk 100 [0, 0]) (fun _ => some (Portfolio.mk [0, 0] 10000)) 2).buy_with_max_price "a" 0 1000 0.6 = some mkt'
      ∧ (mkt'.market_maker).price 0 = some p' ∧ p' ≤ 0.6 := by
  have h := claim_C5_buy_with_max_price_caps_price
    (Market.mk (MarketMaker.mk 100 [0, 0]) (fun _ => some (Portfolio.mk [0, 0] 10000)) 2)
    "a" 0 1000 0.6 (by norm_num) (by simp) (by simp) (by norm_num) (by norm_num)
  obtain ⟨stm, hstm, hbuy, hpost⟩ := h.2 (by norm_num)
  have hi0 : (0:ℕ) < ([0, 0]:List ℝ).length := by simp
  obtain ⟨c, hc⟩ : ∃ c,
      (MarketMaker.mk 100 ([0, 0]:List ℝ)).cost_to_trade 0 (min 1000 stm) = some c :=
    ⟨_, MarketMaker.cost_to_trade_eq _ 0 _ hi0⟩
  have hcle : c ≤ 10000 := by
    rcases le_total (min 1000 stm) 0 with hneg | hpos
    · rcases lt_or_eq_of_le hneg with hlt | heq
      · have := MarketMaker.cost_to_trade_neg _ 0 (min 1000 stm) c (by norm_num) hi0 hlt hc
        linarith
      · have h0 := MarketMaker.cost_to_trade_le _ 0 (min 1000 stm) c (by norm_num) hi0
          (le_of_eq heq.symm) hc
        linarith
    · have hle := MarketMaker.cost_to_trade_le _ 0 (min 1000 stm) c (by norm_num) hi0 hpos hc
      have : min (1000:ℝ) stm ≤ 1000 := min_le_left _ _
      linarith
  obtain ⟨mkt', p', hbuy', hprice', hple⟩ :=
    hpost (Portfolio.mk [0, 0] 10000) c 0 0 rfl hc (by simpa using hcle) rfl rfl
  exact ⟨stm, mkt', p', hstm, hbuy', hprice', hple⟩

/-- C7: `shares_to_set_price` returns
`b * (ln (target/current) - ln ((1-target)/(1-current)))` with `current`
the current price of the outcome, and on a two-outcome market applying the
returned delta to the outcome and recomputing the price gives back the
target exactly (hence within `1e-4`). -/
theorem claim_C7_shares_to_set_price_roundtrip :
    (∀ (m : MarketMaker) (i : ℕ) (t p : ℝ), m.price i = some p →
      m.shares_to_set_price i t
        = some (m.b * (Real.log (t / p) - Real.log ((1 - t) / (1 - p)))))
    ∧ (∀ b q0 q1 t : ℝ, 0 < b → 0 < t → t < 1 →
        ∃ stm, (MarketMaker.mk b [q0, q1]).shares_to_set_price 1 t = some stm
          ∧ ∃ p', (MarketMaker.mk b [q0, q1 + stm]).price 1 = some p'
              ∧ p' = t ∧ |p' - t| < 0.0001) := by
  constructor
  · intro m i t p hp
    rw [MarketMaker.shares_to_set_price, hp, Option.map_some']
  · intro b q0 q1 t hb ht0 ht1
    obtain ⟨stm, hstm, hhit⟩ :=
      (MarketMaker.mk b [q0, q1]).price_after_shares_to_set_price 1 t hb
        (by simp) (by simp) ht0 ht1
    exact ⟨stm, hstm, t, hhit, rfl, by norm_num⟩

/-- Witness for C7 at liquidity 100, shares `[40, 12]`, target `0.6` on
outcome 1. -/
theorem claim_C7_witness :
    ((MarketMaker.mk 100 [40, 12]).shares_to_set_price 1 0.6
      = some ((MarketMaker.mk 100 ([40, 12]:List ℝ)).b * (Real.log (0.6
          / (Real.exp (12/100) / ((0 + Real.exp (40/100)) + Real.exp (12/100))))
        - Real.log ((1 - 0.6)
          / (1 - Real.exp (12/100) / ((0 + Real.exp (40/100)) + Real.exp (12/100)))))))
    ∧ (∃ stm, (MarketMaker.mk 100 [40, 12]).shares_to_set_price 1 0.6 = some stm
        ∧ ∃ p', (MarketMaker.mk 100 [40, 12 + stm]).price 1 = some p'
            ∧ p' = 0.6 ∧ |p' - 0.6| < 0.0001) :=
  ⟨claim_C7_shares_to_set_price_roundtrip.1 (MarketMaker.mk 100 [40, 12]) 1 0.6
      (Real.exp (12/100) / ((0 + Real.exp (40/100)) + Real.exp (12/100))) rfl,
    claim_C7_shares_to_set_price_roundtrip.2 100 40 12 0.6 (by norm_num)
      (by norm_num) (by norm_num)⟩

/-- C6 counterexample: with liquidity 100 and 100000 outstanding shares of
outcome 0 (so `q/b = 1000`, beyond the `f64` exponential range), the
source's naive direct summation overflows — the overflow-aware evaluation
of the code's `cost_fn` is `none` — while the log-sum-exp stabilized
evaluation prescribed by the claim stays finite.  The implementation
therefore does not compute `cost()` with log-sum-exp stabilization and does
not remain correct for large `q_i/b`. -/
theorem claim_C6_counterexample :
    (MarketMaker.mk 100 [100000, 0]).cost_fn_chk = none
    ∧ (MarketMaker.mk 100 [100000, 0]).cost_fn_stabilized_chk ≠ none := by
  constructor
  · rw [MarketMaker.cost_fn_chk, MarketMaker.sum_of_exp_chk,
      foldl_chk_of_big _ _ _ ⟨100000, by simp, by norm_num [f64_exp_max]⟩]
    rfl
  · simp only [MarketMaker.cost_fn_stabilized_chk]
    norm_num [exp_chk, f64_exp_max, max_def]
    exact Option.some_ne_none _

/-- C6 amended: `cost()` returns `b * ln (Σ_i exp (q_i / b))`, but the
implementation computes the sum by naive direct summation with no
log-sum-exp stabilization: whenever every `q_i / b` is within the `f64`
exponential range the checked evaluation agrees with the ideal value, and
as soon as some `q_i / b` exceeds that range the computation overflows
instead of remaining correct. -/
theorem claim_C6_amended :
    (∀ m : MarketMaker, m.cost_fn
        = m.b * Real.log ((m.outstanding_shares.map fun q => Real.exp (q / m.b)).sum))
    ∧ (∀ m : MarketMaker, (∀ q ∈ m.outstanding_shares, q / m.b ≤ f64_exp_max) →
        m.cost_fn_chk = some m.cost_fn)
    ∧ (∀ m : MarketMaker, (∃ q ∈ m.outstanding_shares, f64_exp_max < q / m.b) →
        m.cost_fn_chk = none) := by
  refine ⟨fun m => ?_, fun m h => ?_, fun m h => ?_⟩
  · rw [MarketMaker.cost_fn, MarketMaker.sum_of_exp, foldl_add_map, zero_add]
  · rw [MarketMaker.cost_fn_chk, MarketMaker.sum_of_exp_chk,
      foldl_chk_of_le _ _ _ h, Option.map_some', MarketMaker.cost_fn,
      MarketMaker.sum_of_exp, foldl_add_map]
  · rw [MarketMaker.cost_fn_chk, MarketMaker.sum_of_exp_chk,
      foldl_chk_of_big _ _ _ h]
    rfl

/-- Witness for C6 (amended): a small market evaluates without overflow to
the ideal cost; a market with `q/b = 800` overflows. -/
theorem claim_C6_witness :
    (MarketMaker.mk 100 [0, 0]).cost_fn_chk = some (MarketMaker.mk 100 [0, 0]).cost_fn
    ∧ (MarketMaker.mk 10 [8000]).cost_fn_chk = none :=
  ⟨claim_C6_amended.2.1 (MarketMaker.mk 100 [0, 0])
      (by intro q hq; simp at hq; rw [hq]; norm_num [f64_exp_max]),
    claim_C6_amended.2.2 (MarketMaker.mk 10 [8000])
      ⟨8000, by simp, by norm_num [f64_exp_max]⟩⟩

/-- C8 counterexample: no bounds check exists.  Asking the engine for the
price of outcome 2 on a two-outcome market hits the out-of-range vector
index, i.e. the call panics (`none` in the embedding) instead of being
rejected with the state-preserving outcome the claim requires; the same
happens to a Ledger trade for an existing participant. -/
theorem claim_C8_counterexample :
    (MarketMaker.mk 100 [0, 0]).price 2 = none
    ∧ ((Market.new 100 2).add_collateral "a" 5).trade "a" 2 1 = none := by
  constructor
  · rfl
  · rfl

/-- C8 amended: none of the operations checks the outcome identifier.  At
an out-of-range identifier every engine operation, a Ledger `trade` for an
existing participant, and a nonnegative `buy_with_max_price` panic on the
vector index (`none` in the embedding) rather than rejecting the call.  (A
Ledger `trade` for an unknown participant returns before indexing and is a
silent no-op.) -/
theorem claim_C8_amended :
    (∀ (m : MarketMaker) (i : ℕ) (s t : ℝ), m.outstanding_shares.length ≤ i →
      m.price i = none ∧ m.cost_to_trade i s = none
        ∧ m.shares_to_set_price i t = none ∧ m.trade i s = none)
    ∧ (∀ (mkt : Market) (a : String) (i : ℕ) (s : ℝ) (P : Portfolio),
        mkt.portfolios a = some P →
        mkt.market_maker.outstanding_shares.length ≤ i →
        mkt.trade a i s = none)
    ∧ (∀ (mkt : Market) (a : String) (i : ℕ) (s t : ℝ),
        mkt.market_maker.outstanding_shares.length ≤ i → 0 ≤ s →
        mkt.buy_with_max_price a i s t = none) := by
  have hengine : ∀ (m : MarketMaker) (i : ℕ) (s t : ℝ),
      m.outstanding_shares.length ≤ i →
      m.price i = none ∧ m.cost_to_trade i s = none
        ∧ m.shares_to_set_price i t = none ∧ m.trade i s = none := by
    intro m i s t h
    have hnone : m.outstanding_shares[i]? = none := List.getElem?_eq_none h
    have hp : m.price i = none := by rw [MarketMaker.price, hnone]; rfl
    refine ⟨hp, ?_, ?_, ?_⟩
    · rw [MarketMaker.cost_to_trade, hnone]; rfl
    · rw [MarketMaker.shares_to_set_price, hp]; rfl
    · rw [MarketMaker.trade, hnone]; rfl
  refine ⟨hengine, fun mkt a i s P hP h => ?_, fun mkt a i s t h hs => ?_⟩
  · have hc := (hengine mkt.market_maker i s 0 h).2.1
    simp only [Market.trade, hP, hc, Option.none_bind]
  · have hstm := (hengine mkt.market_maker i s t h).2.2.1
    rw [Market.buy_with_max_price, if_neg (not_lt.mpr hs), hstm, Option.none_bind]

/-- Witness for C8 (amended) at out-of-range outcome 5. -/
theorem claim_C8_witness :
    ((MarketMaker.mk 100 [0, 0]).price 5 = none
      ∧ (MarketMaker.mk 100 [0, 0]).cost_to_trade 5 1 = none
      ∧ (MarketMaker.mk 100 [0, 0]).shares_to_set_price 5 0.5 = none
      ∧ (MarketMaker.mk 100 [0, 0]).trade 5 1 = none)
    ∧ (Market.mk (MarketMaker.mk 100 [0, 0])
        (fun _ => some (Portfolio.mk [0, 0] 7)) 2).trade "b" 5 1 = none
    ∧ (Market.mk (MarketMaker.mk 100 [0, 0])
        (fun _ => some (Portfolio.mk [0, 0] 7)) 2).buy_with_max_price "b" 5 1 0.5
      = none :=
  ⟨claim_C8_amended.1 (MarketMaker.mk 100 [0, 0]) 5 1 0.5 (by simp),
    claim_C8_amended.2.1 _ "b" 5 1 (Portfolio.mk [0, 0] 7) rfl (by simp),
    claim_C8_amended.2.2 _ "b" 5 1 0.5 (by simp) (by norm_num)⟩

/-- C9 counterexample: `add_collateral` accepts a negative amount, so a
single deposit of `-1` from a fresh Ledger drives that participant's
collateral below zero. -/
theorem claim_C9_counterexample :
    ∃ mkt' P, (Market.new 100 2).run [Op.deposit "a" (-1)] = some mkt'
      ∧ mkt'.portfolios "a" = some P ∧ P.collateral < 0 := by
  refine ⟨(Market.new 100 2).add_collateral "a" (-1),
    Portfolio.mk (List.replicate 2 0) (0 + (-1)), rfl, rfl, by norm_num⟩

/-- C9 amended: for every sequence of Ledger operations from a fresh market
in which every deposit amount is nonnegative, every stored portfolio's
collateral stays nonnegative (trades and capped buys can never push it
negative; only a negative deposit can). -/
theorem claim_C9_collateral_nonneg (b : ℝ) (n : ℕ) (ops : List Op)
    (mkt' : Market)
    (hops : ∀ a amt, Op.deposit a amt ∈ ops → 0 ≤ amt)
    (hrun : (Market.new b n).run ops = some mkt') :
    ∀ a P, mkt'.portfolios a = some P → 0 ≤ P.collateral := by
  have hinv : (Market.new b n).solvent := by
    intro a P hP
    simp [Market.new] at hP
  exact Market.solvent_run _ ops mkt' hinv hops hrun

/-- Witness for C9 (amended): one deposit of `5`. -/
theorem claim_C9_witness :
    (0:ℝ) ≤ (Portfolio.mk (List.replicate 2 (0:ℝ)) (0 + 5)).collateral :=
  claim_C9_collateral_nonneg 100 2 [Op.deposit "a" 5]
    ((Market.new 100 2).add_collateral "a" 5)
    (by
      intro a amt h
      simp only [List.mem_singleton] at h
      injection h with h1 h2
      rw [h2]
      norm_num)
    rfl "a" _ rfl

/-- C10: when the current price of the outcome already exceeds the price
cap (with the cap in the open unit interval and the current price below
one), `shares_to_set_price` returns a strictly negative quantity, which is
below any nonnegative request, and `buy_with_max_price` executes a trade
with that negative delta: for a participant with a portfolio and
nonnegative collateral the trade goes through (its cost is negative) and
strictly reduces both the participant's holdings and the engine's
outstanding shares for the outcome. -/
theorem claim_C10_buy_helper_can_sell (mkt : Market) (a : String) (i : ℕ)
    (s t p : ℝ) (P : Portfolio) (ps q : ℝ)
    (hb : 0 < mkt.market_maker.b)
    (hp : mkt.market_maker.price i = some p)
    (ht0 : 0 < t) (htp : t < p) (hp1 : p < 1)
    (hs : 0 ≤ s)
    (hP : mkt.portfolios a = some P)
    (hPc : 0 ≤ P.collateral)
    (hps : P.outcome_shares[i]? = some ps)
    (hq : mkt.market_maker.outstanding_shares[i]? = some q) :
    ∃ stm c mkt',
      mkt.market_maker.shares_to_set_price i t = some stm ∧ stm < 0 ∧ stm < s
      ∧ mkt.market_maker.cost_to_trade i stm = some c ∧ c < 0
      ∧ mkt.buy_with_max_price a i s t = some mkt'
      ∧ mkt'.portfolios a
          = some (Portfolio.mk (P.outcome_shares.set i (ps + stm)) (P.collateral - c))
      ∧ ps + stm < ps
      ∧ (mkt'.market_maker).outstanding_shares[i]? = some (q + stm)
      ∧ q + stm < q := by
  have hi : i < mkt.market_maker.outstanding_shares.length :=
    (List.getElem?_eq_some.mp hq).1
  have hp0 : 0 < p := lt_trans ht0 htp
  have hstm := mkt.market_maker.shares_to_set_price_eq i t hi
  rw [MarketMaker.price_eq _ i hi, Option.some_inj] at hp
  rw [hp] at hstm
  set stm := mkt.market_maker.b * (Real.log (t / p) - Real.log ((1 - t) / (1 - p)))
    with hstm_def
  have hlog1 : Real.log (t / p) < 0 :=
    Real.log_neg (div_pos ht0 hp0) ((div_lt_one hp0).mpr htp)
  have hlog2 : 0 < Real.log ((1 - t) / (1 - p)) :=
    Real.log_pos ((one_lt_div (by linarith)).mpr (by linarith))
  have hstm_neg : stm < 0 := mul_neg_of_pos_of_neg hb (by linarith)
  have hstm_lt_s : stm < s := lt_of_lt_of_le hstm_neg hs
  obtain ⟨c, hc⟩ : ∃ c, mkt.market_maker.cost_to_trade i stm = some c :=
    ⟨_, mkt.market_maker.cost_to_trade_eq i stm hi⟩
  have hc_neg : c < 0 :=
    mkt.market_maker.cost_to_trade_neg i stm c hb hi hstm_neg hc
  have hcoll : c ≤ P.collateral := by linarith
  have htrade := Market.trade_success mkt a i stm P c ps q hP hc hcoll hps hq
  have hbuy : mkt.buy_with_max_price a i s t = some
      { mkt with
        market_maker := MarketMaker.mk mkt.market_maker.b
          (mkt.market_maker.outstanding_shares.set i (q + stm))
        portfolios := (fun a' =>
          if a' = a then
            some (Portfolio.mk (P.outcome_shares.set i (ps + stm)) (P.collateral - c))
          else mkt.portfolios a') } := by
    rw [Market.buy_with_max_price, if_neg (not_lt.mpr hs), hstm, Option.some_bind,
      if_pos hstm_lt_s, htrade]
  refine ⟨stm, c, _, hstm, hstm_neg, hstm_lt_s, hc, hc_neg, hbuy,
    by dsimp only; rw [if_pos rfl], by linarith, ?_, by linarith⟩
  exact List.getElem?_set_eq_of_lt (q + stm) hi

/-- Witness for C10: liquidity 100, outstanding shares `[0, 40]`, current
price of outcome 1 around `0.6`, price cap `1/2`, request of 5 shares. -/
theorem claim_C10_witness :
    ∃ stm c mkt',
      (Market.mk (MarketMaker.mk 100 [0, 40])
          (fun _ => some (Portfolio.mk [0, 0] 100)) 2).market_maker.shares_to_set_price 1 (1/2) = some stm
      ∧ stm < 0 ∧ stm < 5
      ∧ (Market.mk (MarketMaker.mk 100 [0, 40])
          (fun _ => some (Portfolio.mk [0, 0] 100)) 2).market_maker.cost_to_trade 1 stm = some c
      ∧ c < 0
      ∧ (Market.mk (MarketMaker.mk 100 [0, 40])
          (fun _ => some (Portfolio.mk [0, 0] 100)) 2).buy_with_max_price "a" 1 5 (1/2) = some mkt'
      ∧ mkt'.portfolios "a"
          = some (Portfolio.mk (([0, 0]:List ℝ).set 1 (0 + stm)) (100 - c))
      ∧ (0:ℝ) + stm < 0
      ∧ (mkt'.market_maker).outstanding_shares[1]? = some (40 + stm)
      ∧ (40:ℝ) + stm < 40 := by
  have hexp : (1.4:ℝ) ≤ Real.exp (40/100) := by
    have h := Real.add_one_le_exp (0.4:ℝ)
    have harg : (0.4:ℝ) = 40/100 := by norm_num
    rw [harg] at h
    linarith
  have hpos : (0:ℝ) < (0 + Real.exp (0/100)) + Real.exp (40/100) := by positivity
  exact claim_C10_buy_helper_can_sell
    (Market.mk (MarketMaker.mk 100 [0, 40]) (fun _ => some (Portfolio.mk [0, 0] 100)) 2)
    "a" 1 5 (1/2)
    (Real.exp (40/100) / ((0 + Real.exp (0/100)) + Real.exp (40/100)))
    (Portfolio.mk [0, 0] 100) 0 40
    (by norm_num)
    rfl
    (by norm_num)
    (by
      rw [lt_div_iff₀ hpos]
      norm_num [Real.exp_zero] at *
      linarith)
    (by
      rw [div_lt_one hpos]
      have h0 := Real.exp_pos ((0:ℝ)/100)
      linarith)
    (by norm_num)
    rfl
    (by norm_num)
    rfl
    rfl

end LMSR
